import Mathlib

/-!
# Monte Carlo volume estimation of an n-dimensional p-norm ball

A shallow embedding of `monte_carlo_sphere.c`.

* `double` values are read over an exact ordered field `α` (the rationals for
  executable instances, the reals for the closed-form volume); rounding is not
  modelled.  The two libm entry points the program uses, `pow` and `tgamma`,
  are the fields of `Libm`.
* `int`, `long` and `unsigned int` are `Int`/`Nat`. The `unsigned int` seed
  derivation carries its `% 2^32`; `atol` stops at the ends of the 64-bit
  `long` and `atoi` keeps the low 32 bits, as in the GNU C library.
* `main` returns `none` where the program has no exit status of its own: a
  `-schedule` value that overruns the 20-byte buffer, or a refused resource.
* The C library generators `srand`/`rand`/`rand_r` and `RAND_MAX` are the
  fields of `Libc`; `glibc_rand_r` is the GNU C library's `rand_r`.
* The OpenMP runtime is not part of the sources; its work-sharing schedules
  are modelled in the section on scheduling.
-/

namespace MonteCarlo

/-! ## Numbers and library functions -/

/-- The libm functions called by the program, over the type standing for `double`. -/
structure Libm (α : Type) where
  /-- C `pow(x, y)`. -/
  pow : α → α → α
  /-- C `tgamma(x)`. -/
  tgamma : α → α

/-- The C library random number generator: `srand`, `rand` (hidden global
state `State`), `rand_r` (state in the caller's `unsigned int`) and `RAND_MAX`. -/
structure Libc where
  State : Type
  srand : Nat → State
  rand : State → Nat × State
  rand_r : Nat → Nat × Nat
  RAND_MAX : Nat

/-- An exact `pow` on the rationals for exponents that are natural numbers
(the integer part of the numerator of the exponent is used). -/
def ratLibm : Libm ℚ where
  pow := fun x y => x ^ y.num.toNat
  tgamma := fun x => ((x.num.toNat - 1).factorial : ℚ)

/-- The libm functions over the reals: real powers and the Gamma function. -/
noncomputable def realLibm : Libm ℝ where
  pow := fun x y => x ^ y
  tgamma := Real.Gamma

/-- The GNU C library `rand_r`: three steps of a linear congruential generator
on a 32-bit state, giving 11 + 10 + 10 bits. Returns the result and the new state. -/
def glibc_rand_r (seed : Nat) : Nat × Nat :=
  let next1 := (seed * 1103515245 + 12345) % 4294967296
  let result1 := (next1 / 65536) % 2048
  let next2 := (next1 * 1103515245 + 12345) % 4294967296
  let result2 := (result1 * 1024) ^^^ ((next2 / 65536) % 1024)
  let next3 := (next2 * 1103515245 + 12345) % 4294967296
  let result3 := (result2 * 1024) ^^^ ((next3 / 65536) % 1024)
  (result3, next3)

/-- A C library whose `rand_r` and `RAND_MAX` are the GNU ones. Its `rand` runs
the same generator on a hidden state set by `srand`; the GNU `rand`, an
additive feedback generator, is not modelled, and every theorem about
`monte_carlo_serial` holds for an arbitrary `Libc`. -/
def glibc : Libc where
  State := Nat
  srand := fun seed => seed % 4294967296
  rand := glibc_rand_r
  rand_r := glibc_rand_r
  RAND_MAX := 2147483647

section Program

variable {α : Type} [LinearOrderedField α]

/-! ## exact_volume -/

/-- `compute_gamma(x)`. -/
def compute_gamma (L : Libm α) (x : α) : α :=
  L.tgamma x

/-- `exact_volume(n, p, R)`. -/
def exact_volume (L : Libm α) (n : Int) (p R : α) : α :=
  let gamma_term := compute_gamma L (1 + 1 / p)
  let numerator := L.pow (2 * gamma_term) (n : α)
  let denominator := compute_gamma L (1 + (n : α) / p)
  (numerator / denominator) * L.pow R (n : α)

/-! ## is_inside_sphere -/

/-- The accumulation loop of `is_inside_sphere`: `sum += pow(fabs(point[i]), p)`
for `i = 0, ..., n-1`. -/
def sphere_sum (L : Libm α) (point : List α) (n : Int) (p : α) : α :=
  (List.range n.toNat).foldl (fun sum i => sum + L.pow |point.getD i 0| p) 0

/-- `is_inside_sphere(point, n, p, R)`: the C truth value of `sum <= pow(R, p)`,
paired with the point buffer as the call leaves it. -/
def is_inside_sphere (L : Libm α) (point : List α) (n : Int) (p R : α) : Int × List α :=
  (if sphere_sum L point n p ≤ L.pow R p then 1 else 0, point)

/-! ## Sampling and the serial estimator -/

/-- The sampler's `u = (double)r / RAND_MAX` for a raw generator output `r`. -/
def unit_draw (C : Libc) (r : Nat) : α :=
  (r : α) / (C.RAND_MAX : α)

/-- The sampler's `(2.0 * u - 1.0) * R`. -/
def coordinate (u R : α) : α :=
  (2 * u - 1) * R

/-- The coordinate loop `for (j = 0; j < n; j++) point[j] = ...`, drawing from
the generator `draw` with state `s`. -/
def fill_point {σ : Type} (C : Libc) (draw : σ → Nat × σ) (n : Int) (R : α)
    (s : σ) (point : List α) : σ × List α :=
  (List.range n.toNat).foldl
    (fun st j => ((draw st.1).2, st.2.set j (coordinate (unit_draw C (draw st.1).1) R)))
    (s, point)

/-- One trial: fill the point, test it, count a hit. The state is the generator
state, the point buffer and the hit counter. -/
def trial {σ : Type} (L : Libm α) (C : Libc) (draw : σ → Nat × σ) (n : Int) (p R : α)
    (st : σ × List α × Int) : σ × List α × Int :=
  let filled := fill_point C draw n R st.1 st.2.1
  let inside := is_inside_sphere L filled.2 n p R
  (filled.1, inside.2, if inside.1 ≠ 0 then st.2.2 + 1 else st.2.2)

/-- The buffer returned by `malloc(n * sizeof(double))`; every cell is written
by `fill_point` before `is_inside_sphere` reads it. -/
def malloc_point (n : Int) : List α :=
  List.replicate n.toNat 0

/-- The value of `hits` when the trial loop of `monte_carlo_serial` ends. -/
def monte_carlo_serial_hits (L : Libm α) (C : Libc) (n : Int) (p R : α) (N : Int)
    (seed : Nat) : Int :=
  ((List.range N.toNat).foldl (fun st _ => trial L C C.rand n p R st)
    (C.srand seed, malloc_point n, 0)).2.2

/-- `monte_carlo_serial(n, p, R, N, seed)`. -/
def monte_carlo_serial (L : Libm α) (C : Libc) (n : Int) (p R : α) (N : Int)
    (seed : Nat) : α :=
  let hits := monte_carlo_serial_hits L C n p R N seed
  let hypercube_volume := L.pow (2 * R) (n : α)
  (hits : α) / (N : α) * hypercube_volume

/-! ## Scheduling: the OpenMP work-sharing loop -/

/-- Modelled from the spec: the OpenMP runtime that executes
`#pragma omp for schedule(static)` is not in the sources. The `static-equal`
policy: `[0,N)` is cut into `W` contiguous blocks whose sizes differ by at most
one, block `t` fixed to worker `t` (the first `N % W` blocks have one more). -/
def static_equal (N W t : Nat) : List Nat :=
  List.range' (t * (N / W) + min t (N % W)) (N / W + if t < N % W then 1 else 0)

/-- Modelled from the spec: the shared state of a chunked work-sharing loop,
the block-assignment cursor and the trial indices each worker has received. -/
structure SchedState where
  cursor : Nat
  got : Nat → List Nat

/-- Modelled from the spec: the state before any block is handed out. -/
def SchedState.init : SchedState :=
  ⟨0, fun _ => []⟩

/-- Modelled from the spec: worker `t` atomically claims the next block of at
most `c` indices from the cursor; nothing happens once the cursor has
reached `N`. -/
def claim_block (N c : Nat) (s : SchedState) (t : Nat) : SchedState :=
  if s.cursor < N then
    ⟨s.cursor + c,
      fun w => if w = t then s.got t ++ List.range' s.cursor (min c (N - s.cursor)) else s.got w⟩
  else s

/-- Modelled from the spec: the `dynamic-chunk(c)` policy, run with the workers
claiming blocks in the order `claims` (the order is the runtime's choice). -/
def dynamic_run (N c : Nat) (claims : List Nat) : SchedState :=
  claims.foldl (claim_block N c) SchedState.init

/-- Number of blocks of size `c` needed to cover `[0,N)`. -/
def num_blocks (N c : Nat) : Nat :=
  (N + c - 1) / c

/-- Modelled from the spec: the `static-chunk(c)` policy, blocks of size `c`
handed out round-robin: block `k` goes to worker `k % W`. -/
def static_chunk (N W c : Nat) : Nat → List Nat :=
  (dynamic_run N c ((List.range (num_blocks N c)).map (fun k => k % W))).got

/-- Modelled from the spec: the OpenMP runtime is not in the sources. The
choices it makes in one execution of the parallel region: the team size, the chunk size of `schedule(dynamic)` without a chunk
argument, the order in which workers claim blocks under a dynamic schedule,
and the order in which the workers perform the atomic update of `hits`. -/
structure OmpRun where
  W : Nat
  default_chunk : Nat
  claims : List Nat
  commits : List Nat

/-- The index lists the work-sharing loop selected by `monte_carlo_parallel`
gives to the workers: the four branches on `schedule_type` and `chunk_size`. -/
def schedule (schedule_type : String) (chunk_size : Int) (N : Int) (rt : OmpRun) :
    Nat → List Nat :=
  if schedule_type = "static" then
    if chunk_size > 0 then static_chunk N.toNat rt.W chunk_size.toNat
    else static_equal N.toNat rt.W
  else
    if chunk_size > 0 then (dynamic_run N.toNat chunk_size.toNat rt.claims).got
    else (dynamic_run N.toNat rt.default_chunk rt.claims).got

/-- Modelled from the spec: a run of the runtime is well formed for the loop of `N` iterations selected
by `schedule_type` and `chunk_size`: at least one worker, every worker commits
exactly once, and under a dynamic schedule the chunk size is positive, every
claimant is a team member and the loop is run to completion. -/
def OmpRun.WellFormed (rt : OmpRun) (schedule_type : String) (chunk_size : Int) (N : Int) :
    Prop :=
  1 ≤ rt.W ∧ rt.commits.Perm (List.range rt.W)
    ∧ (schedule_type ≠ "static" →
        0 < rt.default_chunk ∧ (∀ t ∈ rt.claims, t < rt.W)
          ∧ num_blocks N.toNat (if chunk_size > 0 then chunk_size.toNat else rt.default_chunk)
              ≤ rt.claims.length)

/-- The index lists `assign 0, ..., assign (W-1)` partition `[0,N)`: every index
below `N` belongs to exactly one worker, no worker holds an index twice or an
index outside `[0,N)`, and the list lengths add up to `N`. -/
def IsPartition (assign : Nat → List Nat) (W N : Nat) : Prop :=
  (∀ i, i < N → ∃! t, t < W ∧ i ∈ assign t)
    ∧ (∀ t, t < W → (assign t).Nodup ∧ ∀ i ∈ assign t, i < N)
    ∧ ((List.range W).map (fun t => (assign t).length)).sum = N

/-! ## The parallel estimator -/

/-- The per-worker seed: `unsigned int thread_seed = seed + 1337 * thread_id`. -/
def thread_seed (seed : Nat) (thread_id : Nat) : Nat :=
  (seed + 1337 * thread_id) % 4294967296

/-- The value of `local_hits` of worker `thread_id` after its share `indices`
of the work-sharing loop. -/
def worker_local_hits (L : Libm α) (C : Libc) (n : Int) (p R : α) (seed : Nat)
    (thread_id : Nat) (indices : List Nat) : Int :=
  (indices.foldl (fun st _ => trial L C C.rand_r n p R st)
    (thread_seed seed thread_id, malloc_point n, 0)).2.2

/-- The atomic update `hits += local_hits`. -/
def atomic_add (hits local_hits : Int) : Int :=
  hits + local_hits

/-- The value of `hits` after the parallel region of `monte_carlo_parallel`,
the workers committing in the order `rt.commits`. -/
def monte_carlo_parallel_hits (L : Libm α) (C : Libc) (n : Int) (p R : α) (N : Int)
    (seed : Nat) (schedule_type : String) (chunk_size : Int) (rt : OmpRun) : Int :=
  rt.commits.foldl
    (fun hits t => atomic_add hits
      (worker_local_hits L C n p R seed t (schedule schedule_type chunk_size N rt t)))
    0

/-- `monte_carlo_parallel(n, p, R, N, seed, schedule_type, chunk_size)`. -/
def monte_carlo_parallel (L : Libm α) (C : Libc) (n : Int) (p R : α) (N : Int)
    (seed : Nat) (schedule_type : String) (chunk_size : Int) (rt : OmpRun) : α :=
  let hits := monte_carlo_parallel_hits L C n p R N seed schedule_type chunk_size rt
  let hypercube_volume := L.pow (2 * R) (n : α)
  (hits : α) / (N : α) * hypercube_volume

/-! ## The sampled points, as a specification of the trial loops -/

/-- The generator state after `k` draws from state `s`. -/
def draw_state {σ : Type} (draw : σ → Nat × σ) (s : σ) : Nat → σ
  | 0 => s
  | k + 1 => (draw (draw_state draw s k)).2

/-- The `k`-th raw output (from 0) of the generator started in state `s`. -/
def nth_draw {σ : Type} (draw : σ → Nat × σ) (s : σ) (k : Nat) : Nat :=
  (draw (draw_state draw s k)).1

/-- The point sampled in the `i`-th trial of a stream started in state `s`:
its `j`-th coordinate comes from draw number `i * n + j`. -/
def sampled_point {σ : Type} (C : Libc) (draw : σ → Nat × σ) (s : σ) (n : Int) (R : α)
    (i : Nat) : List α :=
  (List.range n.toNat).map
    (fun j => coordinate (unit_draw C (nth_draw draw s (i * n.toNat + j))) R)

/-- The number of the first `m` trials of a stream whose sampled point passes
`is_inside_sphere`. -/
def hit_count {σ : Type} (L : Libm α) (C : Libc) (draw : σ → Nat × σ) (s : σ) (n : Int)
    (p R : α) (m : Nat) : Nat :=
  ((List.range m).filter
    (fun i => (is_inside_sphere L (sampled_point C draw s n R i) n p R).1 ≠ 0)).length

/-- The number of hits over all workers of a parallel run: worker `t` samples
from the `rand_r` stream seeded with `thread_seed seed t`, one point per index
it was assigned. -/
def parallel_hit_count (L : Libm α) (C : Libc) (n : Int) (p R : α) (seed : Nat)
    (W : Nat) (assign : Nat → List Nat) : Nat :=
  ((List.range W).map
    (fun t => hit_count L C C.rand_r (thread_seed seed t) n p R (assign t).length)).sum

/-! ## main -/

/-- C `isspace` on a character. -/
def isspace (c : Char) : Bool :=
  c.toNat = 32 || (9 ≤ c.toNat && c.toNat ≤ 13)

/-- The value of the longest run of decimal digits at the head of the text,
continuing from `acc`. -/
def digits_value : List Char → Int → Int
  | [], acc => acc
  | c :: cs, acc =>
    if 48 ≤ c.toNat ∧ c.toNat ≤ 57 then digits_value cs (acc * 10 + (c.toNat - 48 : Nat))
    else acc

/-- `LONG_MAX` of a 64-bit `long`. -/
def LONG_MAX : Int :=
  9223372036854775807

/-- `LONG_MIN` of a 64-bit `long`. -/
def LONG_MIN : Int :=
  -9223372036854775808

/-- The number `strtol` reads in base 10 before any range check: optional
white space, optional sign, decimal digits; text with no leading number
gives 0. -/
def strtol_value (s : String) : Int :=
  match s.toList.dropWhile isspace with
  | [] => 0
  | c :: cs =>
    if c = '-' then - digits_value cs 0
    else if c = '+' then digits_value cs 0
    else digits_value (c :: cs) 0

/-- C `atol(s)`, that is `strtol(s, NULL, 10)`: a value outside the range of
`long` is replaced by `LONG_MAX` or `LONG_MIN`. -/
def atol (s : String) : Int :=
  if strtol_value s > LONG_MAX then LONG_MAX
  else if strtol_value s < LONG_MIN then LONG_MIN
  else strtol_value s

/-- Conversion of a `long` to a 32-bit `int`: the low 32 bits, read in two's
complement. -/
def long_to_int (x : Int) : Int :=
  (x + 2147483648) % 4294967296 - 2147483648

/-- C `atoi(s)`, in the GNU C library `(int) strtol(s, NULL, 10)`. -/
def atoi (s : String) : Int :=
  long_to_int (atol s)

/-- The local variables of `main` that hold the configuration. -/
structure Config (α : Type) where
  n : Int
  p : α
  R : α
  N : Int
  seed : Nat
  num_threads : Int
  schedule_type : String
  chunk_size : Int
  parallel_mode : Int

/-- The defaults `main` starts from. -/
def Config.default : Config α :=
  { n := 10, p := 4, R := 1, N := 1000000, seed := 42, num_threads := 1,
    schedule_type := "static", chunk_size := 0, parallel_mode := 0 }

/-- The argument loop of `main` over `argv[1..]`: an option that takes a value
consumes the next argument, `-parallel` takes none, anything else is skipped.
`strcpy(schedule_type, argv[i + 1])` writes into `char schedule_type[20]`
without a length check: a value of 20 bytes or more runs past the buffer, the
behaviour is undefined and the result is `none`. -/
def parse_args (atof : String → α) : List String → Config α → Option (Config α)
  | [], cfg => some cfg
  | [a], cfg => some (if a = "-parallel" then { cfg with parallel_mode := 1 } else cfg)
  | a :: v :: rest, cfg =>
    if a = "-n" then parse_args atof rest { cfg with n := atoi v }
    else if a = "-p" then parse_args atof rest { cfg with p := atof v }
    else if a = "-R" then parse_args atof rest { cfg with R := atof v }
    else if a = "-N" then parse_args atof rest { cfg with N := atol v }
    else if a = "-seed" then
      parse_args atof rest { cfg with seed := (atoi v % 4294967296).toNat }
    else if a = "-threads" then
      parse_args atof rest { cfg with num_threads := atoi v, parallel_mode := 1 }
    else if a = "-schedule" then
      if v.utf8ByteSize < 20 then parse_args atof rest { cfg with schedule_type := v }
      else none
    else if a = "-chunk" then parse_args atof rest { cfg with chunk_size := atoi v }
    else if a = "-parallel" then parse_args atof (v :: rest) { cfg with parallel_mode := 1 }
    else parse_args atof (v :: rest) cfg

/-- A call of one of the two estimators, with its arguments. -/
inductive EstimatorCall (α : Type) where
  | serial (n : Int) (p R : α) (N : Int) (seed : Nat)
  | parallel (n : Int) (p R : α) (N : Int) (seed : Nat) (schedule_type : String)
      (chunk_size : Int)

/-- The trial count an estimator call passes. -/
def EstimatorCall.trials : EstimatorCall α → Int
  | .serial _ _ _ N _ => N
  | .parallel _ _ _ N _ _ _ => N

/-- The estimator call `main` makes for a configuration:
`if (parallel_mode) monte_carlo_parallel(...) else monte_carlo_serial(...)`. -/
def Config.call (cfg : Config α) : EstimatorCall α :=
  if cfg.parallel_mode ≠ 0 then
    .parallel cfg.n cfg.p cfg.R cfg.N cfg.seed cfg.schedule_type cfg.chunk_size
  else .serial cfg.n cfg.p cfg.R cfg.N cfg.seed

/-- What a run of `main` that returns does: the estimator calls it makes and
its exit status. -/
structure MainResult (α : Type) where
  calls : List (EstimatorCall α)
  status : Int

/-- `main(argc, argv)`: parse, run one estimator, `return 0`; there is no other
`return` and no `exit`. Printing is left out, and the estimate is the value of
the recorded call. The result is `none` where `main` does not return: when the
argument loop overruns `schedule_type`, and when the run is refused a resource
it needs (`resources_ok = false`): a point buffer that a trial writes to
(`malloc` returns a null pointer; needed when `n > 0` and `N > 0`), or the
worker threads of the parallel region (needed in parallel mode with more than
one thread). -/
def main (atof : String → α) (resources_ok : Bool) (argv : List String) :
    Option (MainResult α) :=
  match parse_args atof (argv.drop 1) Config.default with
  | none => none
  | some cfg =>
    if resources_ok = false
        ∧ ((0 < cfg.n ∧ 0 < cfg.N) ∨ (cfg.parallel_mode ≠ 0 ∧ 1 < cfg.num_threads)) then none
    else some { calls := [cfg.call], status := 0 }

end Program

/-! ## Theorems -/

section Proofs

variable {α : Type} [LinearOrderedField α]

theorem foldl_add_getD (f : α → α) (point : List α) (k : Nat) (hk : k ≤ point.length) :
    (List.range k).foldl (fun sum i => sum + f (point.getD i 0)) 0
      = ((point.take k).map f).sum := by
  induction k with
  | zero => simp
  | succ k ih =>
    have hlt : k < point.length := hk
    rw [List.range_succ, List.foldl_append, ih (Nat.le_of_lt hlt)]
    have htake : point.take (k + 1) = point.take k ++ [point.getD k 0] := by
      rw [List.take_succ]
      congr 1
      simp [List.getD, List.getElem?_eq_getElem hlt]
    rw [htake]
    simp

theorem sphere_sum_eq (L : Libm α) (point : List α) (n : Int) (p : α)
    (hn : (point.length : Int) = n) :
    sphere_sum L point n p = (point.map (fun x => L.pow |x| p)).sum := by
  have hlen : n.toNat = point.length := by omega
  unfold sphere_sum
  rw [foldl_add_getD (fun x => L.pow |x| p) point n.toNat (by omega), hlen, List.take_length]

/-- C1: for a point of `n` coordinates, `is_inside_sphere` returns non-zero exactly
when the sum over the coordinates of `|x_i|^p` is at most `R^p` (equality included),
and the point buffer is left as it was. -/
theorem is_inside_sphere_iff (L : Libm α) (point : List α) (n : Int) (p R : α)
    (hn : (point.length : Int) = n) :
    ((is_inside_sphere L point n p R).1 ≠ 0
        ↔ (point.map (fun x => L.pow |x| p)).sum ≤ L.pow R p)
      ∧ (is_inside_sphere L point n p R).2 = point := by
  refine ⟨?_, rfl⟩
  unfold is_inside_sphere
  rw [sphere_sum_eq L point n p hn]
  by_cases h : (point.map (fun x => L.pow |x| p)).sum ≤ L.pow R p <;> simp [h]

/-- C1 at the point `(1/2, -1/2)` with `p = 2`, `R = 1`. -/
theorem is_inside_sphere_iff_witness :
    ((is_inside_sphere ratLibm [1 / 2, -1 / 2] 2 2 1).1 ≠ 0
        ↔ (([1 / 2, -1 / 2] : List ℚ).map (fun x => ratLibm.pow |x| 2)).sum ≤ ratLibm.pow 1 2)
      ∧ (is_inside_sphere ratLibm [1 / 2, -1 / 2] 2 2 1).2 = [1 / 2, -1 / 2] :=
  is_inside_sphere_iff ratLibm [1 / 2, -1 / 2] 2 2 1 (by decide)

/-! ### Scheduling -/

theorem flatMap_range_blocks (start size : Nat → Nat) (h0 : start 0 = 0)
    (hstep : ∀ t, start (t + 1) = start t + size t) (k : Nat) :
    (List.range k).flatMap (fun t => List.range' (start t) (size t)) = List.range (start k) := by
  induction k with
  | zero => simp [h0]
  | succ k ih =>
    rw [List.range_succ, List.flatMap_append, ih, hstep k, List.range_eq_range',
      List.range_eq_range']
    simp only [List.flatMap_cons, List.flatMap_nil, List.append_nil]
    have := List.range'_append 0 (start k) (size k) 1
    simp only [Nat.zero_add, Nat.one_mul] at this
    rw [this, Nat.add_comm]

theorem static_equal_flatMap (N W : Nat) (hW : 1 ≤ W) :
    (List.range W).flatMap (static_equal N W) = List.range N := by
  have hmod : N % W < W := Nat.mod_lt _ hW
  have hdiv : W * (N / W) + N % W = N := Nat.div_add_mod N W
  have h := flatMap_range_blocks (fun t => t * (N / W) + min t (N % W))
    (fun t => N / W + if t < N % W then 1 else 0) (by simp)
    (by
      intro t
      simp only [Nat.add_mul, Nat.one_mul]
      split <;> omega) W
  have hend : W * (N / W) + min W (N % W) = N := by
    rw [Nat.min_eq_right (Nat.le_of_lt hmod)]
    exact hdiv
  simp only [hend] at h
  exact h

theorem flatMap_update_perm (g : Nat → List Nat) (b : List Nat) (t W : Nat) (ht : t < W) :
    ((List.range W).flatMap (fun w => if w = t then g t ++ b else g w)).Perm
      ((List.range W).flatMap g ++ b) := by
  induction W with
  | zero => omega
  | succ W ih =>
    rw [List.range_succ, List.flatMap_append, List.flatMap_append]
    simp only [List.flatMap_cons, List.flatMap_nil, List.append_nil]
    by_cases htW : t = W
    · subst htW
      have hsame : (List.range t).flatMap (fun w => if w = t then g t ++ b else g w)
          = (List.range t).flatMap g := by
        apply List.flatMap_congr
        intro w hw
        have : w ≠ t := Nat.ne_of_lt (List.mem_range.1 hw)
        simp [this]
      rw [hsame]
      simp
    · have hlt : t < W := by omega
      have hW : (if W = t then g t ++ b else g W) = g W := by
        have : W ≠ t := fun h => htW h.symm
        simp [this]
      rw [hW]
      have h1 := (ih hlt).append_right (g W)
      refine h1.trans ?_
      rw [List.append_assoc, List.append_assoc]
      exact List.Perm.append_left _ List.perm_append_comm

theorem claim_block_perm (N c W : Nat) (s : SchedState) (t : Nat) (ht : t < W)
    (hs : ((List.range W).flatMap s.got).Perm (List.range (min s.cursor N))) :
    ((List.range W).flatMap (claim_block N c s t).got).Perm
      (List.range (min (claim_block N c s t).cursor N)) := by
  unfold claim_block
  by_cases hcur : s.cursor < N
  · simp only [hcur, if_true]
    refine (flatMap_update_perm s.got _ t W ht).trans ?_
    refine (hs.append_right _).trans ?_
    have hmin : min s.cursor N = s.cursor := Nat.min_eq_left (Nat.le_of_lt hcur)
    rw [hmin, List.range_eq_range', List.range_eq_range']
    have := List.range'_append 0 s.cursor (min c (N - s.cursor)) 1
    simp only [Nat.zero_add, Nat.one_mul] at this
    rw [this]
    have : min c (N - s.cursor) + s.cursor = min (s.cursor + c) N := by omega
    rw [this]
  · simp only [hcur, if_false]
    exact hs

theorem claim_block_cursor (N c : Nat) (s : SchedState) (t : Nat) :
    (claim_block N c s t).cursor = if s.cursor < N then s.cursor + c else s.cursor := by
  unfold claim_block
  split <;> rfl

theorem foldl_claim_perm (N c W : Nat) (claims : List Nat) (hcl : ∀ t ∈ claims, t < W)
    (s : SchedState)
    (hs : ((List.range W).flatMap s.got).Perm (List.range (min s.cursor N))) :
    ((List.range W).flatMap (claims.foldl (claim_block N c) s).got).Perm
      (List.range (min (claims.foldl (claim_block N c) s).cursor N)) := by
  induction claims generalizing s with
  | nil => exact hs
  | cons t l ih =>
    rw [List.foldl_cons]
    exact ih (fun w hw => hcl w (List.mem_cons_of_mem _ hw)) _
      (claim_block_perm N c W s t (hcl t (List.mem_cons_self _ _)) hs)

theorem foldl_claim_cursor (N c : Nat) (claims : List Nat) (s : SchedState) :
    N ≤ (claims.foldl (claim_block N c) s).cursor
      ∨ (claims.foldl (claim_block N c) s).cursor = s.cursor + claims.length * c := by
  induction claims generalizing s with
  | nil => right; simp
  | cons t l ih =>
    rw [List.foldl_cons]
    rcases ih (claim_block N c s t) with h | h
    · exact Or.inl h
    · rw [claim_block_cursor] at h
      by_cases hcur : s.cursor < N
      · right
        rw [h, if_pos hcur, List.length_cons, Nat.add_mul]
        omega
      · left
        rw [h, if_neg hcur]
        have : N ≤ s.cursor := Nat.le_of_not_lt hcur
        exact Nat.le_trans this (Nat.le_add_right _ _)

theorem num_blocks_cover (N c : Nat) (hc : 0 < c) : N ≤ num_blocks N c * c := by
  unfold num_blocks
  have h1 := Nat.div_add_mod (N + c - 1) c
  have h2 := Nat.mod_lt (N + c - 1) hc
  rw [Nat.mul_comm] at h1
  omega

theorem dynamic_run_perm (N c W : Nat) (claims : List Nat) (hc : 0 < c)
    (hcl : ∀ t ∈ claims, t < W) (hlen : num_blocks N c ≤ claims.length) :
    ((List.range W).flatMap (dynamic_run N c claims).got).Perm (List.range N) := by
  have hperm := foldl_claim_perm N c W claims hcl SchedState.init
    (by simp [SchedState.init])
  have hcur : N ≤ (dynamic_run N c claims).cursor := by
    rcases foldl_claim_cursor N c claims SchedState.init with h | h
    · exact h
    · unfold dynamic_run
      rw [h]
      have h1 := num_blocks_cover N c hc
      have h2 : num_blocks N c * c ≤ claims.length * c := Nat.mul_le_mul_right c hlen
      simp only [SchedState.init]
      omega
  unfold dynamic_run at hcur ⊢
  rw [Nat.min_eq_right hcur] at hperm
  exact hperm

theorem static_chunk_perm (N W c : Nat) (hW : 1 ≤ W) (hc : 0 < c) :
    ((List.range W).flatMap (static_chunk N W c)).Perm (List.range N) := by
  unfold static_chunk
  apply dynamic_run_perm N c W _ hc
  · intro t ht
    rw [List.mem_map] at ht
    obtain ⟨k, _, rfl⟩ := ht
    exact Nat.mod_lt _ hW
  · simp

theorem isPartition_of_perm (assign : Nat → List Nat) (W N : Nat)
    (h : ((List.range W).flatMap assign).Perm (List.range N)) : IsPartition assign W N := by
  have hnodup : ((List.range W).flatMap assign).Nodup := h.nodup_iff.2 (List.nodup_range N)
  rw [List.nodup_flatMap] at hnodup
  have hmem : ∀ i, i ∈ (List.range W).flatMap assign ↔ i < N := by
    intro i
    rw [h.mem_iff, List.mem_range]
  refine ⟨?_, ?_, ?_⟩
  · intro i hi
    obtain ⟨t, ht, hit⟩ := List.mem_flatMap.1 ((hmem i).2 hi)
    refine ⟨t, ⟨List.mem_range.1 ht, hit⟩, ?_⟩
    rintro t2 ⟨ht2, hit2⟩
    by_contra hne
    have hdis := hnodup.2.forall (fun a b hab => hab.symm) (List.mem_range.2 ht2) ht hne
    exact hdis hit2 hit
  · intro t ht
    refine ⟨hnodup.1 t (List.mem_range.2 ht), ?_⟩
    intro i hi
    exact (hmem i).1 (List.mem_flatMap.2 ⟨t, List.mem_range.2 ht, hi⟩)
  · have hl := h.length_eq
    rw [List.length_flatMap, List.length_range] at hl
    exact hl

theorem schedule_perm (schedule_type : String) (chunk_size : Int) (N : Int) (rt : OmpRun)
    (hwf : rt.WellFormed schedule_type chunk_size N) :
    ((List.range rt.W).flatMap (schedule schedule_type chunk_size N rt)).Perm
      (List.range N.toNat) := by
  obtain ⟨hW, _, hdyn⟩ := hwf
  unfold schedule
  by_cases hs : schedule_type = "static"
  · by_cases hc : chunk_size > 0
    · simp only [hs, hc, if_true]
      exact static_chunk_perm _ _ _ hW (by omega)
    · simp only [hs, hc, if_true, if_false]
      rw [static_equal_flatMap _ _ hW]
  · obtain ⟨hd, hcl, hlen⟩ := hdyn hs
    by_cases hc : chunk_size > 0
    · simp only [hs, hc, if_true, if_false] at hlen ⊢
      exact dynamic_run_perm _ _ _ _ (by omega) hcl hlen
    · simp only [hs, hc, if_false] at hlen ⊢
      exact dynamic_run_perm _ _ _ _ hd hcl hlen

/-- C2: for every trial count `N`, worker count `W >= 1` and each of the four
work-sharing policies `monte_carlo_parallel` can select, the index lists given
to the `W` workers partition `[0,N)`: every index is given to exactly one
worker, none twice, none outside, and the per-worker counts add up to `N`.
Under the dynamic policies this holds for every order in which the workers
claim blocks. -/
theorem schedule_partition :
    (∀ N W : Nat, 1 ≤ W → IsPartition (static_equal N W) W N)
    ∧ (∀ N W c : Nat, 1 ≤ W → 0 < c → IsPartition (static_chunk N W c) W N)
    ∧ (∀ (N W c : Nat) (claims : List Nat), 1 ≤ W → 0 < c → (∀ t ∈ claims, t < W) →
        num_blocks N c ≤ claims.length → IsPartition (dynamic_run N c claims).got W N)
    ∧ (∀ (schedule_type : String) (chunk_size N : Int) (rt : OmpRun),
        rt.WellFormed schedule_type chunk_size N →
        IsPartition (schedule schedule_type chunk_size N rt) rt.W N.toNat) := by
  refine ⟨?_, ?_, ?_, ?_⟩
  · intro N W hW
    apply isPartition_of_perm
    rw [static_equal_flatMap N W hW]
  · intro N W c hW hc
    exact isPartition_of_perm _ _ _ (static_chunk_perm N W c hW hc)
  · intro N W c claims _ hc hcl hlen
    exact isPartition_of_perm _ _ _ (dynamic_run_perm N c W claims hc hcl hlen)
  · intro schedule_type chunk_size N rt hwf
    exact isPartition_of_perm _ _ _ (schedule_perm schedule_type chunk_size N rt hwf)

/-- C2 at ten trials over three workers, and five trials over two. -/
theorem schedule_partition_witness :
    IsPartition (static_equal 10 3) 3 10
    ∧ IsPartition (static_chunk 10 3 2) 3 10
    ∧ IsPartition (dynamic_run 10 4 [2, 2, 0, 1, 1]).got 3 10
    ∧ IsPartition (schedule "dynamic" 0 5 ⟨2, 1, [0, 1, 1, 0, 1], [1, 0]⟩) 2 (5 : Int).toNat :=
  ⟨schedule_partition.1 10 3 (by decide),
    schedule_partition.2.1 10 3 2 (by decide) (by decide),
    schedule_partition.2.2.1 10 3 4 [2, 2, 0, 1, 1] (by decide) (by decide) (by decide)
      (by decide),
    schedule_partition.2.2.2 "dynamic" 0 5 ⟨2, 1, [0, 1, 1, 0, 1], [1, 0]⟩
      ⟨by decide, by decide, by decide⟩⟩

/-! ### The reducer -/

theorem foldl_atomic_add (locals : List Int) (h : Int) :
    locals.foldl atomic_add h = h + locals.sum := by
  induction locals generalizing h with
  | nil => simp
  | cons a l ih => simp [List.foldl_cons, ih, atomic_add, add_assoc]

theorem foldl_atomic_add_map {β : Type} (f : β → Int) (l : List β) (h : Int) :
    l.foldl (fun hits t => atomic_add hits (f t)) h = h + (l.map f).sum := by
  induction l generalizing h with
  | nil => simp
  | cons a l ih =>
    rw [List.foldl_cons, ih]
    simp [atomic_add, add_assoc]

theorem parallel_hits_eq_sum (L : Libm α) (C : Libc) (n : Int) (p R : α) (N : Int)
    (seed : Nat) (schedule_type : String) (chunk_size : Int) (rt : OmpRun)
    (hc : rt.commits.Perm (List.range rt.W)) :
    monte_carlo_parallel_hits L C n p R N seed schedule_type chunk_size rt
      = ((List.range rt.W).map (fun t =>
          worker_local_hits L C n p R seed t (schedule schedule_type chunk_size N rt t))).sum := by
  unfold monte_carlo_parallel_hits
  rw [foldl_atomic_add_map, zero_add]
  exact (hc.map _).sum_eq

/-- C4: folding the atomic add from 0 over the workers' local hit counts gives
their sum, the result is the same for every permutation of the list of local
counts, and the global hit count of `monte_carlo_parallel` is the sum of the
local hit counts of the workers `0, ..., W-1`, whatever order they commit in. -/
theorem reduction_order_independent :
    (∀ locals : List Int, locals.foldl atomic_add 0 = locals.sum)
    ∧ (∀ l₁ l₂ : List Int, l₁.Perm l₂ → l₁.foldl atomic_add 0 = l₂.foldl atomic_add 0)
    ∧ (∀ (L : Libm α) (C : Libc) (n : Int) (p R : α) (N : Int) (seed : Nat)
        (schedule_type : String) (chunk_size : Int) (rt : OmpRun),
        rt.commits.Perm (List.range rt.W) →
        monte_carlo_parallel_hits L C n p R N seed schedule_type chunk_size rt
          = ((List.range rt.W).map (fun t =>
              worker_local_hits L C n p R seed t
                (schedule schedule_type chunk_size N rt t))).sum) := by
  refine ⟨?_, ?_, ?_⟩
  · intro locals
    rw [foldl_atomic_add, zero_add]
  · intro l₁ l₂ h
    rw [foldl_atomic_add, foldl_atomic_add, h.sum_eq]
  · intro L C n p R N seed schedule_type chunk_size rt hc
    exact parallel_hits_eq_sum L C n p R N seed schedule_type chunk_size rt hc

/-- C4 at the local counts `3, 0, 5` and at a two-worker run. -/
theorem reduction_order_independent_witness :
    ([3, 0, 5] : List Int).foldl atomic_add 0 = ([5, 3, 0] : List Int).foldl atomic_add 0
    ∧ monte_carlo_parallel_hits ratLibm glibc 2 1 1 4 42 "static" 0 ⟨2, 1, [], [1, 0]⟩
        = ((List.range 2).map (fun t =>
            worker_local_hits ratLibm glibc 2 1 1 42 t
              (schedule "static" 0 4 ⟨2, 1, [], [1, 0]⟩ t))).sum :=
  ⟨(@reduction_order_independent ℚ _).2.1 [3, 0, 5] [5, 3, 0] (by decide),
    (@reduction_order_independent ℚ _).2.2 ratLibm glibc 2 1 1 4 42 "static" 0
      ⟨2, 1, [], [1, 0]⟩ (by decide)⟩

/-! ### Seeds -/

theorem mod_add_cancel (m s a b : Nat) (hab : a ≤ b) (hlt : b - a < m)
    (h : (s + a) % m = (s + b) % m) : a = b := by
  have h2 : a ≡ b [MOD m] := Nat.ModEq.add_left_cancel' s h
  have hd := (Nat.modEq_iff_dvd' hab).1 h2
  have := Nat.eq_zero_of_dvd_of_lt hd hlt
  omega

/-- C10: the per-worker seed `(seed + 1337 * thread_id) mod 2^32` separates
workers: two distinct thread ids whose products with 1337 stay below `2^31`
(2147483648) get different seeds, and worker 0 gets the base seed (an
`unsigned int`, below `2^32` = 4294967296). -/
theorem thread_seed_injective (seed t₁ t₂ : Nat) (hne : t₁ ≠ t₂)
    (h₁ : 1337 * t₁ < 2147483648) (h₂ : 1337 * t₂ < 2147483648) (hs : seed < 4294967296) :
    thread_seed seed t₁ ≠ thread_seed seed t₂ ∧ thread_seed seed 0 = seed := by
  constructor
  · intro h
    unfold thread_seed at h
    rcases Nat.lt_or_gt_of_ne hne with hlt | hlt
    · have hle : 1337 * t₁ ≤ 1337 * t₂ := Nat.mul_le_mul_left _ (Nat.le_of_lt hlt)
      have hsub : 1337 * t₂ - 1337 * t₁ < 4294967296 :=
        lt_of_le_of_lt (Nat.sub_le _ _) (lt_trans h₂ (by decide))
      have := mod_add_cancel 4294967296 seed (1337 * t₁) (1337 * t₂) hle hsub h
      exact hne (Nat.eq_of_mul_eq_mul_left (by decide) this)
    · have hle : 1337 * t₂ ≤ 1337 * t₁ := Nat.mul_le_mul_left _ (Nat.le_of_lt hlt)
      have hsub : 1337 * t₁ - 1337 * t₂ < 4294967296 :=
        lt_of_le_of_lt (Nat.sub_le _ _) (lt_trans h₁ (by decide))
      have := mod_add_cancel 4294967296 seed (1337 * t₂) (1337 * t₁) hle hsub h.symm
      exact hne (Nat.eq_of_mul_eq_mul_left (by decide) this).symm
  · show (seed + 1337 * 0) % 4294967296 = seed
    rw [Nat.mul_zero, Nat.add_zero]
    exact Nat.mod_eq_of_lt hs

/-- C10 at base seed 42 and workers 0 and 1. -/
theorem thread_seed_injective_witness :
    thread_seed 42 0 ≠ thread_seed 42 1 ∧ thread_seed 42 0 = 42 :=
  thread_seed_injective 42 0 1 (by decide) (by decide) (by decide) (by decide)

/-! ### The sampler -/

theorem unit_draw_bounds (C : Libc) (r : Nat) (hpos : 0 < C.RAND_MAX) (hr : r ≤ C.RAND_MAX) :
    (0 : α) ≤ unit_draw C r ∧ unit_draw C r ≤ (1 : α)
      ∧ (unit_draw C r < (1 : α) ↔ r < C.RAND_MAX) := by
  have hM : (0 : α) < (C.RAND_MAX : α) := by exact_mod_cast hpos
  unfold unit_draw
  refine ⟨div_nonneg (Nat.cast_nonneg r) hM.le, ?_, ?_⟩
  · rw [div_le_one hM]
    exact_mod_cast hr
  · rw [div_lt_one hM]
    exact Nat.cast_lt

theorem fill_point_upto {σ : Type} (C : Libc) (draw : σ → Nat × σ) (R : α) (s : σ)
    (point : List α) (k : Nat) (hk : k ≤ point.length) :
    (List.range k).foldl
        (fun st j => ((draw st.1).2, st.2.set j (coordinate (unit_draw C (draw st.1).1) R)))
        (s, point)
      = (draw_state draw s k,
          (List.range k).map (fun j => coordinate (unit_draw C (nth_draw draw s j)) R)
            ++ point.drop k) := by
  induction k with
  | zero => simp [draw_state]
  | succ k ih =>
    have hlt : k < point.length := hk
    rw [List.range_succ, List.foldl_append, ih (Nat.le_of_lt hlt)]
    simp only [List.foldl_cons, List.foldl_nil, List.map_append, List.map_cons, List.map_nil]
    refine Prod.ext rfl ?_
    simp only [nth_draw]
    rw [List.set_append_right _ _ (by simp)]
    simp only [List.length_map, List.length_range, Nat.sub_self]
    rw [List.drop_eq_getElem_cons hlt, List.set_cons_zero]
    simp only [List.append_assoc, List.singleton_append]

theorem fill_point_eq {σ : Type} (C : Libc) (draw : σ → Nat × σ) (n : Int) (R : α) (s : σ)
    (point : List α) (hlen : point.length = n.toNat) :
    fill_point C draw n R s point
      = (draw_state draw s n.toNat,
          (List.range n.toNat).map
            (fun j => coordinate (unit_draw C (nth_draw draw s j)) R)) := by
  unfold fill_point
  rw [fill_point_upto C draw R s point n.toNat (by omega), ← hlen, List.drop_length,
    List.append_nil]

/-- C7 (amended): for every raw generator output `0 <= r <= RAND_MAX` the
sampler's `u = r / RAND_MAX` lies in the closed interval `[0,1]`, with `u < 1`
exactly when `r < RAND_MAX`; and the coordinate loop stores `(2u_j - 1) * R` in
cell `j`, `u_j` coming from the `j`-th draw. -/
theorem sampler_unit_interval {σ : Type} (C : Libc) (r : Nat) (hpos : 0 < C.RAND_MAX)
    (hr : r ≤ C.RAND_MAX) (draw : σ → Nat × σ) (s : σ) (n : Int) (R : α)
    (point : List α) (hlen : point.length = n.toNat) :
    ((0 : α) ≤ unit_draw C r ∧ unit_draw C r ≤ (1 : α)
      ∧ (unit_draw C r < (1 : α) ↔ r < C.RAND_MAX))
    ∧ (fill_point C draw n R s point).2
        = (List.range n.toNat).map
            (fun j => (2 * unit_draw C (nth_draw draw s j) - 1) * R) := by
  refine ⟨unit_draw_bounds C r hpos hr, ?_⟩
  rw [fill_point_eq C draw n R s point hlen]
  rfl

/-- C7 (amended) at the first output of `rand_r` for seed 42. -/
theorem sampler_unit_interval_witness :
    ((0 : ℚ) ≤ unit_draw glibc 681191333 ∧ unit_draw glibc 681191333 ≤ (1 : ℚ)
      ∧ (unit_draw glibc 681191333 < (1 : ℚ) ↔ 681191333 < glibc.RAND_MAX))
    ∧ (fill_point glibc glibc.rand_r 2 (1 : ℚ) 42 [0, 0]).2
        = (List.range (2 : Int).toNat).map
            (fun j => (2 * unit_draw glibc (nth_draw glibc.rand_r 42 j) - 1) * 1) :=
  sampler_unit_interval glibc 681191333 (by decide) (by decide) glibc.rand_r 42 2 1 [0, 0]
    (by decide)

/-- C7 (as stated) fails: the raw output `r = RAND_MAX` is in the stated range
and gives `u = 1`, which is not below 1. -/
theorem unit_draw_not_lt_one :
    glibc.RAND_MAX ≤ glibc.RAND_MAX ∧ (unit_draw glibc glibc.RAND_MAX : ℚ) = 1
      ∧ ¬ ((unit_draw glibc glibc.RAND_MAX : ℚ) < 1) := by
  have h : (unit_draw glibc glibc.RAND_MAX : ℚ) = 1 := by
    simp [unit_draw, glibc]
  exact ⟨le_refl _, h, by rw [h]; exact lt_irrefl _⟩

/-! ### The trial loops -/

theorem draw_state_add {σ : Type} (draw : σ → Nat × σ) (s : σ) (a b : Nat) :
    draw_state draw (draw_state draw s a) b = draw_state draw s (a + b) := by
  induction b with
  | zero => rfl
  | succ b ih =>
    show (draw (draw_state draw (draw_state draw s a) b)).2 = (draw (draw_state draw s (a + b))).2
    rw [ih]

theorem nth_draw_add {σ : Type} (draw : σ → Nat × σ) (s : σ) (a b : Nat) :
    nth_draw draw (draw_state draw s a) b = nth_draw draw s (a + b) := by
  unfold nth_draw
  rw [draw_state_add]

theorem hit_count_succ {σ : Type} (L : Libm α) (C : Libc) (draw : σ → Nat × σ) (s : σ)
    (n : Int) (p R : α) (m : Nat) :
    hit_count L C draw s n p R (m + 1)
      = hit_count L C draw s n p R m
        + if (is_inside_sphere L (sampled_point C draw s n R m) n p R).1 ≠ 0 then 1 else 0 := by
  unfold hit_count
  rw [List.range_succ, List.filter_append, List.length_append]
  congr 1
  by_cases h : (is_inside_sphere L (sampled_point C draw s n R m) n p R).1 ≠ 0
  · simp [List.filter_cons, h]
  · simp [List.filter_cons, h]

theorem trial_iterate {σ : Type} (L : Libm α) (C : Libc) (draw : σ → Nat × σ) (n : Int)
    (p R : α) (s : σ) (point : List α) (hlen : point.length = n.toNat) (hits : Int) (m : Nat) :
    ∃ pt : List α, pt.length = n.toNat ∧
      (trial L C draw n p R)^[m] (s, point, hits)
        = (draw_state draw s (m * n.toNat), pt, hits + (hit_count L C draw s n p R m : Int)) := by
  induction m with
  | zero => exact ⟨point, hlen, by simp [draw_state, hit_count]⟩
  | succ m ih =>
    obtain ⟨pt, hpt, hm⟩ := ih
    rw [Function.iterate_succ_apply', hm]
    have hfill := fill_point_eq C draw n R (draw_state draw s (m * n.toNat)) pt hpt
    have hpoint : (List.range n.toNat).map
        (fun j => coordinate (unit_draw C
          (nth_draw draw (draw_state draw s (m * n.toNat)) j)) R)
        = sampled_point C draw s n R m := by
      unfold sampled_point
      apply List.map_congr_left
      intro j _
      rw [nth_draw_add]
    rw [hpoint] at hfill
    refine ⟨sampled_point C draw s n R m, by simp [sampled_point], ?_⟩
    simp only [trial, hfill]
    refine Prod.ext ?_ (Prod.ext rfl ?_)
    · simp only [draw_state_add]
      congr 1
      rw [Nat.succ_mul]
    · simp only [hit_count_succ]
      by_cases h : (is_inside_sphere L (sampled_point C draw s n R m) n p R).1 ≠ 0
      · rw [if_pos h, if_pos h]
        push_cast
        ring
      · rw [if_neg h, if_neg h]
        push_cast
        ring

theorem malloc_point_length (n : Int) : (malloc_point n : List α).length = n.toNat := by
  simp [malloc_point]

theorem serial_hits_eq (L : Libm α) (C : Libc) (n : Int) (p R : α) (N : Int) (seed : Nat) :
    monte_carlo_serial_hits L C n p R N seed
      = (hit_count L C C.rand (C.srand seed) n p R N.toNat : Int) := by
  unfold monte_carlo_serial_hits
  rw [List.foldl_const]
  obtain ⟨pt, _, h⟩ := trial_iterate L C C.rand n p R (C.srand seed) (malloc_point n)
    (malloc_point_length n) 0 (List.range N.toNat).length
  rw [h]
  simp

theorem worker_hits_eq (L : Libm α) (C : Libc) (n : Int) (p R : α) (seed : Nat)
    (t : Nat) (indices : List Nat) :
    worker_local_hits L C n p R seed t indices
      = (hit_count L C C.rand_r (thread_seed seed t) n p R indices.length : Int) := by
  unfold worker_local_hits
  rw [List.foldl_const]
  obtain ⟨pt, _, h⟩ := trial_iterate L C C.rand_r n p R (thread_seed seed t) (malloc_point n)
    (malloc_point_length n) 0 indices.length
  rw [h]
  simp

theorem parallel_hits_eq (L : Libm α) (C : Libc) (n : Int) (p R : α) (N : Int)
    (seed : Nat) (schedule_type : String) (chunk_size : Int) (rt : OmpRun)
    (hc : rt.commits.Perm (List.range rt.W)) :
    monte_carlo_parallel_hits L C n p R N seed schedule_type chunk_size rt
      = (parallel_hit_count L C n p R seed rt.W (schedule schedule_type chunk_size N rt) : Int) := by
  rw [parallel_hits_eq_sum L C n p R N seed schedule_type chunk_size rt hc]
  unfold parallel_hit_count
  simp only [worker_hits_eq]
  generalize List.range rt.W = l
  induction l with
  | nil => simp
  | cons a l ih => simp [ih]

/-- C3: for `N > 0`, `monte_carlo_serial` returns `(H / N) * (2R)^n` with `H`
the number of the `N` trials whose sampled point passes `is_inside_sphere`,
the division being a division of the number type and not of integers; and
`monte_carlo_parallel` returns the same expression with `H` the number of hits
among the points sampled by the workers, whose trial counts add up to `N`. -/
theorem estimator_value (L : Libm α) (C : Libc) (n : Int) (p R : α) (N : Int)
    (seed : Nat) (schedule_type : String) (chunk_size : Int) (rt : OmpRun)
    (hN : 0 < N) (hwf : rt.WellFormed schedule_type chunk_size N) :
    monte_carlo_serial L C n p R N seed
        = (hit_count L C C.rand (C.srand seed) n p R N.toNat : α) / (N : α)
          * L.pow (2 * R) (n : α)
    ∧ monte_carlo_parallel L C n p R N seed schedule_type chunk_size rt
        = (parallel_hit_count L C n p R seed rt.W
            (schedule schedule_type chunk_size N rt) : α) / (N : α) * L.pow (2 * R) (n : α)
    ∧ (((List.range rt.W).map
          (fun t => (schedule schedule_type chunk_size N rt t).length)).sum : Int) = N := by
  refine ⟨?_, ?_, ?_⟩
  · simp only [monte_carlo_serial, serial_hits_eq, Int.cast_natCast]
  · simp only [monte_carlo_parallel,
      parallel_hits_eq L C n p R N seed schedule_type chunk_size rt hwf.2.1,
      Int.cast_natCast]
  · have h := (schedule_perm schedule_type chunk_size N rt hwf).length_eq
    rw [List.length_flatMap, List.length_range] at h
    have h' : ((List.range rt.W).map
        (fun t => (schedule schedule_type chunk_size N rt t).length)).sum = N.toNat := h
    rw [h']
    omega

/-- C3 at `n = 2`, `p = 1`, `R = 1`, `N = 10`, `seed = 42`, two workers. -/
theorem estimator_value_witness :
    monte_carlo_serial ratLibm glibc 2 1 1 10 42
        = (hit_count ratLibm glibc glibc.rand (glibc.srand 42) 2 1 1 (10 : Int).toNat : ℚ)
          / ((10 : Int) : ℚ) * ratLibm.pow (2 * 1) ((2 : Int) : ℚ)
    ∧ monte_carlo_parallel ratLibm glibc 2 1 1 10 42 "static" 0 ⟨2, 1, [], [1, 0]⟩
        = (parallel_hit_count ratLibm glibc 2 1 1 42 2
            (schedule "static" 0 10 ⟨2, 1, [], [1, 0]⟩) : ℚ) / ((10 : Int) : ℚ)
          * ratLibm.pow (2 * 1) ((2 : Int) : ℚ)
    ∧ (((List.range 2).map
          (fun t => (schedule "static" 0 10 ⟨2, 1, [], [1, 0]⟩ t).length)).sum : Int) = 10 :=
  estimator_value ratLibm glibc 2 1 1 10 42 "static" 0 ⟨2, 1, [], [1, 0]⟩ (by decide)
    ⟨by decide, by decide, by decide⟩

/-! ### Reproducibility of the parallel hit count -/

theorem schedule_static_eq (chunk_size N : Int) (rt₁ rt₂ : OmpRun) (hW : rt₁.W = rt₂.W) :
    schedule "static" chunk_size N rt₁ = schedule "static" chunk_size N rt₂ := by
  unfold schedule
  simp only [if_true, hW]

theorem parallel_hits_congr (L : Libm α) (C : Libc) (n : Int) (p R : α) (N : Int)
    (seed : Nat) (schedule_type : String) (chunk_size : Int) (rt₁ rt₂ : OmpRun)
    (hW : rt₁.W = rt₂.W) (h₁ : rt₁.commits.Perm (List.range rt₁.W))
    (h₂ : rt₂.commits.Perm (List.range rt₂.W))
    (hlen : ∀ t, t < rt₁.W → (schedule schedule_type chunk_size N rt₁ t).length
      = (schedule schedule_type chunk_size N rt₂ t).length) :
    monte_carlo_parallel_hits L C n p R N seed schedule_type chunk_size rt₁
      = monte_carlo_parallel_hits L C n p R N seed schedule_type chunk_size rt₂ := by
  rw [parallel_hits_eq L C n p R N seed schedule_type chunk_size rt₁ h₁,
    parallel_hits_eq L C n p R N seed schedule_type chunk_size rt₂ h₂]
  unfold parallel_hit_count
  rw [← hW]
  congr 2
  apply List.map_congr_left
  intro t ht
  rw [hlen t (List.mem_range.1 ht)]

/-- C5 (amended): for fixed `(n, p, R, N, seed)` and worker count, two runs of
`monte_carlo_parallel` give the same global hit count, whatever order the
workers commit in, under a static policy (with or without chunk size), and
under any policy whenever every worker executes the same number of trials in
both runs. -/
theorem parallel_hits_reproducible (L : Libm α) (C : Libc) (n : Int) (p R : α) (N : Int)
    (seed : Nat) (schedule_type : String) (chunk_size : Int) (rt₁ rt₂ : OmpRun)
    (hW : rt₁.W = rt₂.W) (h₁ : rt₁.commits.Perm (List.range rt₁.W))
    (h₂ : rt₂.commits.Perm (List.range rt₂.W)) :
    (schedule_type = "static" →
      monte_carlo_parallel_hits L C n p R N seed schedule_type chunk_size rt₁
        = monte_carlo_parallel_hits L C n p R N seed schedule_type chunk_size rt₂)
    ∧ ((∀ t, t < rt₁.W → (schedule schedule_type chunk_size N rt₁ t).length
          = (schedule schedule_type chunk_size N rt₂ t).length) →
      monte_carlo_parallel_hits L C n p R N seed schedule_type chunk_size rt₁
        = monte_carlo_parallel_hits L C n p R N seed schedule_type chunk_size rt₂) := by
  refine ⟨?_, parallel_hits_congr L C n p R N seed schedule_type chunk_size rt₁ rt₂ hW h₁ h₂⟩
  intro hs
  apply parallel_hits_congr L C n p R N seed schedule_type chunk_size rt₁ rt₂ hW h₁ h₂
  intro t _
  rw [hs, schedule_static_eq chunk_size N rt₁ rt₂ hW]

/-- C5 (amended) at two static runs that differ in commit order. -/
theorem parallel_hits_reproducible_witness :
    monte_carlo_parallel_hits ratLibm glibc 2 1 1 4 42 "static" 1 ⟨2, 1, [0, 0], [0, 1]⟩
      = monte_carlo_parallel_hits ratLibm glibc 2 1 1 4 42 "static" 1 ⟨2, 1, [1], [1, 0]⟩ :=
  (parallel_hits_reproducible ratLibm glibc 2 1 1 4 42 "static" 1 ⟨2, 1, [0, 0], [0, 1]⟩
    ⟨2, 1, [1], [1, 0]⟩ rfl (by decide) (by decide)).1 rfl

theorem hit_count_seed0_two : hit_count ratLibm glibc glibc.rand_r 0 2 1 1 2 = 0 := by
  have h0 : nth_draw glibc_rand_r 0 0 = 1012484 := by decide
  have h1 : nth_draw glibc_rand_r 0 1 = 1716955679 := by decide
  have h2 : nth_draw glibc_rand_r 0 2 = 1792309082 := by decide
  have h3 : nth_draw glibc_rand_r 0 3 = 229610924 := by decide
  simp [hit_count, sampled_point, List.range_succ, List.filter_cons, is_inside_sphere,
    sphere_sum, ratLibm, coordinate, unit_draw, glibc, h0, h1, h2, h3]
  norm_num [abs_of_nonneg, abs_of_neg]

theorem hit_count_seed0_one : hit_count ratLibm glibc glibc.rand_r 0 2 1 1 1 = 0 := by
  have h0 : nth_draw glibc_rand_r 0 0 = 1012484 := by decide
  have h1 : nth_draw glibc_rand_r 0 1 = 1716955679 := by decide
  simp [hit_count, sampled_point, List.range_succ, List.filter_cons, is_inside_sphere,
    sphere_sum, ratLibm, coordinate, unit_draw, glibc, h0, h1]
  norm_num [abs_of_nonneg, abs_of_neg]

theorem hit_count_seed1337_one : hit_count ratLibm glibc glibc.rand_r 1337 2 1 1 1 = 1 := by
  have h0 : nth_draw glibc_rand_r 1337 0 = 1258050482 := by decide
  have h1 : nth_draw glibc_rand_r 1337 1 = 1697379302 := by decide
  simp [hit_count, sampled_point, List.range_succ, List.filter_cons, is_inside_sphere,
    sphere_sum, ratLibm, coordinate, unit_draw, glibc, h0, h1]
  norm_num [abs_of_nonneg, abs_of_neg]

/-- C5 (as stated) fails under the dynamic policy: with `n = 2`, `p = 1`, `R = 1`,
`N = 2`, `seed = 0`, two workers and `schedule(dynamic)`, the run in which
worker 0 claims both blocks counts 0 hits and the run in which each worker
claims one block counts 1 hit. -/
theorem dynamic_hits_differ :
    (⟨2, 1, [0, 0], [0, 1]⟩ : OmpRun).WellFormed "dynamic" 0 2
    ∧ (⟨2, 1, [0, 1], [0, 1]⟩ : OmpRun).WellFormed "dynamic" 0 2
    ∧ monte_carlo_parallel_hits ratLibm glibc 2 1 1 2 0 "dynamic" 0 ⟨2, 1, [0, 0], [0, 1]⟩ = 0
    ∧ monte_carlo_parallel_hits ratLibm glibc 2 1 1 2 0 "dynamic" 0 ⟨2, 1, [0, 1], [0, 1]⟩ = 1 := by
  refine ⟨⟨by decide, by decide, by decide⟩, ⟨by decide, by decide, by decide⟩, ?_, ?_⟩
  · rw [parallel_hits_eq _ _ _ _ _ _ _ _ _ _ (by decide)]
    have e0 : (schedule "dynamic" 0 2 ⟨2, 1, [0, 0], [0, 1]⟩ 0).length = 2 := by decide
    have e1 : (schedule "dynamic" 0 2 ⟨2, 1, [0, 0], [0, 1]⟩ 1).length = 0 := by decide
    have s0 : thread_seed 0 0 = 0 := by decide
    simp [parallel_hit_count, List.range_succ, e0, e1, s0, hit_count_seed0_two]
    simp [hit_count]
  · rw [parallel_hits_eq _ _ _ _ _ _ _ _ _ _ (by decide)]
    have e0 : (schedule "dynamic" 0 2 ⟨2, 1, [0, 1], [0, 1]⟩ 0).length = 1 := by decide
    have e1 : (schedule "dynamic" 0 2 ⟨2, 1, [0, 1], [0, 1]⟩ 1).length = 1 := by decide
    have s0 : thread_seed 0 0 = 0 := by decide
    have s1 : thread_seed 0 1 = 1337 := by decide
    simp [parallel_hit_count, List.range_succ, e0, e1, s0, s1, hit_count_seed0_one,
      hit_count_seed1337_one]

/-! ### Zero radius -/

/-- C6 (amended): with `R = 0`, every `p > 0`, `N >= 1`, seed and dimension
`n >= 1`, the estimates of `monte_carlo_serial` and `monte_carlo_parallel` are 0. -/
theorem zero_radius_estimate (C : Libc) (n : Int) (p : ℝ) (N : Int) (seed : Nat)
    (schedule_type : String) (chunk_size : Int) (rt : OmpRun)
    (hn : 1 ≤ n) (_hp : 0 < p) (_hN : 1 ≤ N) :
    monte_carlo_serial realLibm C n p 0 N seed = 0
    ∧ monte_carlo_parallel realLibm C n p 0 N seed schedule_type chunk_size rt = 0 := by
  have hne : (n : ℝ) ≠ 0 := by
    have : (1 : ℝ) ≤ (n : ℝ) := by exact_mod_cast hn
    linarith
  have hvol : realLibm.pow (2 * 0) (n : ℝ) = 0 := by
    show ((2 * 0 : ℝ)) ^ (n : ℝ) = 0
    rw [mul_zero, Real.zero_rpow hne]
  constructor
  · show _ * realLibm.pow (2 * 0) (n : ℝ) = 0
    rw [hvol, mul_zero]
  · show _ * realLibm.pow (2 * 0) (n : ℝ) = 0
    rw [hvol, mul_zero]

/-- C6 (amended) at `n = 3`, `p = 4`, `N = 100`. -/
theorem zero_radius_estimate_witness :
    monte_carlo_serial realLibm glibc 3 4 0 100 42 = 0
    ∧ monte_carlo_parallel realLibm glibc 3 4 0 100 42 "dynamic" 0 ⟨2, 1, [], [0, 1]⟩ = 0 :=
  zero_radius_estimate glibc 3 4 100 42 "dynamic" 0 ⟨2, 1, [], [0, 1]⟩ (by decide)
    (by norm_num) (by decide)

/-- C6 (as stated) fails in dimension `n = 0`, which the program accepts: with
`R = 0`, `p = 4`, `N = 1` the only trial is a hit (no coordinate is drawn, and
`0 <= pow(0, 4) = 0`) and the hypercube volume is `pow(0, 0) = 1`, so both
`monte_carlo_serial` and `monte_carlo_parallel` (one worker, static schedule)
return 1. -/
theorem zero_radius_dimension_zero :
    monte_carlo_serial realLibm glibc 0 4 0 1 42 = 1
    ∧ monte_carlo_serial realLibm glibc 0 4 0 1 42 ≠ 0
    ∧ monte_carlo_parallel realLibm glibc 0 4 0 1 42 "static" 0 ⟨1, 1, [], [0]⟩ = 1 := by
  have h : monte_carlo_serial realLibm glibc 0 4 0 1 42 = 1 := by
    simp only [monte_carlo_serial, serial_hits_eq]
    simp [hit_count, sampled_point, List.range_succ, List.filter_cons, is_inside_sphere,
      sphere_sum, realLibm]
  refine ⟨h, by rw [h]; exact one_ne_zero, ?_⟩
  have e0 : (schedule "static" 0 1 ⟨1, 1, [], [0]⟩ 0).length = 1 := by decide
  simp only [monte_carlo_parallel]
  rw [parallel_hits_eq _ _ _ _ _ _ _ _ _ _ (by decide)]
  simp [parallel_hit_count, List.range_succ, e0, hit_count, sampled_point, List.filter_cons,
    is_inside_sphere, sphere_sum, realLibm]

/-! ### The closed-form volume -/

/-- C9: over the reals with the Gamma function, `exact_volume(n, p, R)` is
`(2 Γ(1+1/p))^n / Γ(1+n/p) * R^n`; for `n = 1` and `p > 0` it is `2 R`; and
`exact_volume(1, 2, 1) = 2`. -/
theorem exact_volume_formula :
    (∀ (n : Int) (p R : ℝ),
        exact_volume realLibm n p R
          = (2 * Real.Gamma (1 + 1 / p)) ^ n / Real.Gamma (1 + (n : ℝ) / p) * R ^ n)
    ∧ (∀ (p R : ℝ), 0 < p → exact_volume realLibm 1 p R = 2 * R)
    ∧ exact_volume realLibm 1 2 1 = 2 := by
  have hone : ∀ (p R : ℝ), 0 < p → exact_volume realLibm 1 p R = 2 * R := by
    intro p R hp
    have hg : 0 < Real.Gamma (1 + 1 / p) :=
      Real.Gamma_pos_of_pos (by positivity)
    simp only [exact_volume, compute_gamma, realLibm, Int.cast_one, Real.rpow_one]
    field_simp
  refine ⟨?_, hone, ?_⟩
  · intro n p R
    simp only [exact_volume, compute_gamma, realLibm, Real.rpow_intCast]
  · have := hone 2 1 (by norm_num)
    simpa using this

/-- C9 at `n = 1`, `p = 4`, `R = 3`. -/
theorem exact_volume_formula_witness : exact_volume realLibm 1 4 3 = 2 * 3 :=
  exact_volume_formula.2.1 4 3 (by norm_num)

/-! ### main -/

theorem parse_args_total {β : Type} (atof : String → β) (k : Nat) :
    ∀ (args : List String) (cfg : Config β), args.length ≤ k →
      (∀ a ∈ args, a.utf8ByteSize < 20) → ∃ cfg', parse_args atof args cfg = some cfg' := by
  induction k with
  | zero =>
    intro args cfg hlen _
    have : args = [] := List.length_eq_zero.1 (Nat.le_zero.1 hlen)
    subst this
    exact ⟨cfg, rfl⟩
  | succ k ih =>
    intro args cfg hlen hfit
    match args, hlen, hfit with
    | [], _, _ => exact ⟨cfg, rfl⟩
    | [a], _, _ => exact ⟨_, rfl⟩
    | a :: v :: rest, hlen, hfit =>
      have hrest : rest.length ≤ k := by
        simp only [List.length_cons] at hlen
        omega
      have hvrest : (v :: rest).length ≤ k := by
        simp only [List.length_cons] at hlen ⊢
        omega
      have hfr : ∀ b ∈ rest, b.utf8ByteSize < 20 := fun b hb =>
        hfit b (List.mem_cons_of_mem _ (List.mem_cons_of_mem _ hb))
      have hfv : ∀ b ∈ v :: rest, b.utf8ByteSize < 20 := fun b hb =>
        hfit b (List.mem_cons_of_mem _ hb)
      have hv : v.utf8ByteSize < 20 := hfit v (List.mem_cons_of_mem _ (List.mem_cons_self _ _))
      have A := fun c => ih rest c hrest hfr
      have B := fun c => ih (v :: rest) c hvrest hfv
      unfold parse_args
      by_cases h1 : a = "-n"
      · rw [if_pos h1]; exact A _
      rw [if_neg h1]
      by_cases h2 : a = "-p"
      · rw [if_pos h2]; exact A _
      rw [if_neg h2]
      by_cases h3 : a = "-R"
      · rw [if_pos h3]; exact A _
      rw [if_neg h3]
      by_cases h4 : a = "-N"
      · rw [if_pos h4]; exact A _
      rw [if_neg h4]
      by_cases h5 : a = "-seed"
      · rw [if_pos h5]; exact A _
      rw [if_neg h5]
      by_cases h6 : a = "-threads"
      · rw [if_pos h6]; exact A _
      rw [if_neg h6]
      by_cases h7 : a = "-schedule"
      · rw [if_pos h7, if_pos hv]; exact A _
      rw [if_neg h7]
      by_cases h8 : a = "-chunk"
      · rw [if_pos h8]; exact A _
      rw [if_neg h8]
      by_cases h9 : a = "-parallel"
      · rw [if_pos h9]; exact B _
      rw [if_neg h9]
      exact B _

theorem strtol_value_no_number (c : Char) (cs : List Char) (hsp : isspace c = false)
    (hminus : c ≠ '-') (hplus : c ≠ '+') (hdig : ¬ (48 ≤ c.toNat ∧ c.toNat ≤ 57)) :
    strtol_value (String.mk (c :: cs)) = 0 := by
  have hdrop : List.dropWhile isspace (c :: cs) = c :: cs := by
    simp [List.dropWhile_cons, hsp]
  unfold strtol_value
  simp only [String.toList, hdrop, hminus, hplus, if_false, digits_value, hdig]

theorem atol_no_number (c : Char) (cs : List Char) (hsp : isspace c = false)
    (hminus : c ≠ '-') (hplus : c ≠ '+') (hdig : ¬ (48 ≤ c.toNat ∧ c.toNat ≤ 57)) :
    atol (String.mk (c :: cs)) = 0 := by
  unfold atol
  rw [strtol_value_no_number c cs hsp hminus hplus hdig]
  decide

/-- C8 (amended): `main` validates nothing; a configuration that is out of
range is handled like any other. When every argument is shorter than 20 bytes
the argument loop yields a configuration; whenever it does, and the run is not
refused a buffer or a thread it needs, `main` makes exactly one estimator call,
with the configuration as parsed, and returns exit status 0. On `-N v` the
trial count passed is `atol(v)` whatever it is, and text that does not start
with a number is read as 0. -/
theorem main_runs_unvalidated (atof : String → α) :
    (∀ argv : List String, (∀ a ∈ argv.drop 1, a.utf8ByteSize < 20) →
        ∃ cfg, parse_args atof (argv.drop 1) Config.default = some cfg)
    ∧ (∀ (argv : List String) (cfg : Config α) (resources_ok : Bool),
        parse_args atof (argv.drop 1) Config.default = some cfg →
        (resources_ok = true
          ∨ ((cfg.n ≤ 0 ∨ cfg.N ≤ 0) ∧ (cfg.parallel_mode = 0 ∨ cfg.num_threads ≤ 1))) →
        main atof resources_ok argv = some { calls := [cfg.call], status := 0 }
          ∧ cfg.call.trials = cfg.N)
    ∧ (∀ (prog v : String) (resources_ok : Bool), resources_ok = true ∨ atol v ≤ 0 →
        main atof resources_ok [prog, "-N", v]
          = some { calls := [.serial 10 4 1 (atol v) 42], status := 0 })
    ∧ (∀ (c : Char) (cs : List Char), isspace c = false → c ≠ '-' → c ≠ '+' →
        ¬ (48 ≤ c.toNat ∧ c.toNat ≤ 57) → atol (String.mk (c :: cs)) = 0) := by
  have hrun : ∀ (argv : List String) (cfg : Config α) (resources_ok : Bool),
      parse_args atof (argv.drop 1) Config.default = some cfg →
      (resources_ok = true
        ∨ ((cfg.n ≤ 0 ∨ cfg.N ≤ 0) ∧ (cfg.parallel_mode = 0 ∨ cfg.num_threads ≤ 1))) →
      main atof resources_ok argv = some { calls := [cfg.call], status := 0 }
        ∧ cfg.call.trials = cfg.N := by
    intro argv cfg resources_ok hparse hres
    constructor
    · unfold main
      rw [hparse]
      have hno : ¬ (resources_ok = false
          ∧ ((0 < cfg.n ∧ 0 < cfg.N) ∨ (cfg.parallel_mode ≠ 0 ∧ 1 < cfg.num_threads))) := by
        rintro ⟨h0, hneed⟩
        rcases hres with h | ⟨hbuf, hthr⟩
        · rw [h] at h0
          exact Bool.noConfusion h0
        · rcases hneed with ⟨h1, h2⟩ | ⟨h1, h2⟩
          · omega
          · rcases hthr with h | h
            · exact h1 h
            · omega
      simp only [hno, if_false]
    · unfold Config.call
      split <;> rfl
  refine ⟨?_, hrun, ?_, atol_no_number⟩
  · intro argv hfit
    exact parse_args_total atof (argv.drop 1).length (argv.drop 1) Config.default
      (Nat.le_refl _) hfit
  · intro prog v resources_ok hres
    have hparse : parse_args atof (List.drop 1 [prog, "-N", v]) Config.default
        = some { (Config.default : Config α) with N := atol v } := by
      simp [parse_args]
    have h := (hrun [prog, "-N", v] _ resources_ok hparse
      (by
        rcases hres with h | h
        · exact Or.inl h
        · exact Or.inr ⟨Or.inr h, Or.inl rfl⟩)).1
    rw [h]
    rfl

/-- C8 (amended) at the command lines `mc -n abc`, `mc -p -1 -parallel`,
`mc -N -5`, and at the text `many`. -/
theorem main_runs_unvalidated_witness :
    (∃ cfg, parse_args (fun _ => (0 : ℚ)) (["mc", "-n", "abc"].drop 1) Config.default
        = some cfg)
    ∧ (main (fun _ => (0 : ℚ)) true ["mc", "-p", "-1", "-parallel"]
          = some { calls := [({ (Config.default : Config ℚ) with
              p := 0, parallel_mode := 1 }).call], status := 0 }
        ∧ ({ (Config.default : Config ℚ) with p := 0, parallel_mode := 1 }).call.trials
            = 1000000)
    ∧ main (fun _ => (0 : ℚ)) true ["mc", "-N", "-5"]
        = some { calls := [.serial 10 4 1 (atol "-5") 42], status := 0 }
    ∧ atol (String.mk ('m' :: ['a', 'n', 'y'])) = 0 :=
  ⟨(main_runs_unvalidated (fun _ => (0 : ℚ))).1 ["mc", "-n", "abc"] (by decide),
    (main_runs_unvalidated (fun _ => (0 : ℚ))).2.1 ["mc", "-p", "-1", "-parallel"]
      { (Config.default : Config ℚ) with p := 0, parallel_mode := 1 } true rfl (Or.inl rfl),
    (main_runs_unvalidated (fun _ => (0 : ℚ))).2.2.1 "mc" "-5" true (Or.inl rfl),
    (main_runs_unvalidated (fun _ => (0 : ℚ))).2.2.2 'm' ['a', 'n', 'y'] (by decide)
      (by decide) (by decide) (by decide)⟩

/-- C8 (as stated) fails: on the command line `mc -N 0` the parsed trial count
is 0, and `main` calls `monte_carlo_serial` with `N = 0` and exits with status 0. -/
theorem main_accepts_zero_trials :
    main (fun _ => (0 : ℚ)) true ["mc", "-N", "0"]
      = some { calls := [.serial 10 4 1 0 42], status := 0 } :=
  rfl

/-- Where the model of `main` has no exit status and what the range of `int`
and `long` does to the parsed numbers: a `-schedule` value of 20 bytes overruns
the buffer; `atoi` wraps `2147483648` to `-2147483648`; `atol` stops at
`LONG_MIN`. -/
theorem main_parse_limits :
    main (fun _ => (0 : ℚ)) true ["mc", "-schedule", "aaaaaaaaaaaaaaaaaaaa"] = none
    ∧ atoi "2147483648" = -2147483648
    ∧ atol "-9223372036854775809" = LONG_MIN
    ∧ atoi "99999999999999999999" = -1 := by
  refine ⟨rfl, by decide, by decide, by decide⟩

end Proofs

end MonteCarlo
